import Mathlib

/-!
# Verification of the cltk-collatinus inflection engine

A shallow embedding of the Latin decliner of `src/cltk_collatinus/__init__.py`
(`LatinDecliner.getRoots`, `LatinDecliner.decline`) and of the model compiler of
`src/cltk_collatinus/collatinus_data/convert.py` (`parse_range`,
`convert_models`), together with theorems settling the specification claims.

Python strings are embedded as Lean `String` (sequences of characters);
Python `dict`s as insertion-ordered association lists with overwrite-in-place
update semantics; Python exceptions as `Except` errors.
-/

namespace Collatinus

/-! ## Python string primitives -/

/-- Python slice `s[:n]` for `n ≥ 0`: the first `n` characters. -/
def pyTake (s : String) (n : Nat) : String :=
  String.mk (s.data.take n)

/-- Python slice `s[n:]` for `n ≥ 0`: drop the first `n` characters
(e.g. `line[5:]` in `convert_models`). -/
def pyDrop (s : String) (n : Nat) : String :=
  String.mk (s.data.drop n)

/-- Python slice `s[:-d]` as used in `getRoots`
(`lemma_root[:-deletion]`): for `d = 0` it is `s[:0] = ""` (Python's
negative-index convention drops the whole string), otherwise the first
`length - d` characters. -/
def pyCut (s : String) (d : Nat) : String :=
  if d = 0 then "" else pyTake s (s.data.length - d)

/-- Split a character sequence on a separator character; pieces between
(and around) separators, as Python `str.split(sep)` does. -/
def splitChars (sep : Char) : List Char → List (List Char)
  | [] => [[]]
  | c :: cs =>
    if c = sep then [] :: splitChars sep cs
    else
      match splitChars sep cs with
      | [] => [[c]]
      | h :: t => (c :: h) :: t

/-- Python `s.split(sep)` for a one-character separator (the only kind the
source uses: `","`, `";"`, `":"`, `"-"`, `"="`). -/
def pySplit (sep : Char) (s : String) : List String :=
  (splitChars sep s.data).map String.mk

/-- Python `s.replace(c, "")` for a one-character pattern: remove every
occurrence of `c` (used for `d.replace("-", "")` in `convert_models`). -/
def pyRemoveChar (c : Char) (s : String) : String :=
  String.mk (s.data.filter (fun x => x != c))

/-- Python `int(s)` on a decimal-digit string; `none` models the
`ValueError` raised on any other input. -/
def pyInt? (s : String) : Option Nat :=
  if s.data.isEmpty then none
  else if s.data.all Char.isDigit then
    some (s.data.foldl (fun n c => 10 * n + (c.toNat - ('0').toNat)) 0)
  else none

/-- Iterating a Python `str` yields its characters, each a one-character
string. This is how `decline`'s loop `for sufd in model["sufd"]` traverses
the value stored by `convert_models` (which is a raw string, see
`processSufdLine`). -/
def pyStrIter (s : String) : List String :=
  s.data.map (fun c => String.mk [c])

/-- Python truthiness of an optional string field (`if lemma_entry[root_name]`):
`None` and the empty string are falsy. -/
def truthy : Option String → Bool
  | none => false
  | some s => !s.data.isEmpty

/-! ## Python `dict`s as insertion-ordered association lists -/

/-- Whether the dict has an entry for key `k` (Python `k in d`). -/
def containsKey [BEq α] (d : List (α × β)) (k : α) : Bool :=
  d.any (fun p => p.1 == k)

/-- Python `d[k]` on an association-list dict: the value of the first
binding whose key matches. -/
def dlookup [BEq α] (k : α) : List (α × β) → Option β
  | [] => none
  | (k1, v1) :: rest => bif k == k1 then some v1 else dlookup k rest

/-- Python `d[k] = v` on a dict: overwrite in place when the key exists
(keeping its position), otherwise append the new binding at the end
(insertion order). -/
def dictSet [BEq α] (d : List (α × β)) (k : α) (v : β) : List (α × β) :=
  bif containsKey d k then d.map (fun p => bif p.1 == k then (k, v) else p)
  else d ++ [(k, v)]

/-- Python `d.update(d2)`: set every binding of `d2` into `d`, in order. -/
def dictUpdate [BEq α] (d : List (α × β)) : List (α × β) → List (α × β)
  | [] => d
  | (k, v) :: rest => dictUpdate (dictSet d k v) rest

/-! ## Data model of the decliner (`LatinDecliner`) -/

/-- The two run-time failures the decliner can produce: the `UnknownLemma`
exception raised explicitly by `getRoots`/`decline`, and any Python
`KeyError` from a missing dict key. -/
inductive Err where
  | unknownLemma
  | keyError
deriving DecidableEq, Repr

/-- A root-derivation rule, one value of a paradigm's `R` table.  The stored
form in the source is the pair `[REMOVE, ADD]` with `REMOVE` either the
sentinel `"K"` or a non-negative integer as text, and `ADD` a string or
`None`; `getRoots` branches on `model_root_data[0] == "K"` and otherwise
applies `int(...)` and `model_root_data[1] or ""`.  The embedding carries
the decoded form, with the `or ""` default already applied to `addition`. -/
inductive RootRule where
  | K
  | der (deletion : Nat) (addition : String)
deriving DecidableEq, Repr

/-- A lemma entry as the decliner reads it (fields `lemma`, `model`,
`geninf`, `perf` of the loaded JSON record; the opaque `lexicon` field is
not consulted by the engine).  `lem` embeds the `"lemma"` field. -/
structure LemmaEntry where
  lem : String
  model : String
  geninf : Option String
  perf : Option String
deriving DecidableEq, Repr

/-- A paradigm as `decline` consumes it: `des` maps each tag to the list of
`(root_id, endings)` groups the code unpacks (`root_id, endings =
tuple(form)` inside `for form in form_list`), `suf` is the sequence of
`[suffix, [modified_tags]]` pairs the suffix loop unpacks
(`suffix, modified_forms = suffixes[0], suffixes[1]`), `sufd` the sequence
of constant suffixes iterated by `for sufd in model["sufd"]`. -/
structure Model where
  R : List (String × RootRule)
  des : List (Nat × List (String × List String))
  abs : List Nat
  sufd : List String
  suf : List (String × List Nat)
deriving DecidableEq, Repr

/-! ## `LatinDecliner.getRoots` -/

/-- The root list a single `R` rule produces for a lemma entry when no root
for its root-id was derived before: the citation form verbatim for `K`
(never split on commas), and the comma-split variants of the citation form
each cut and extended for a derivation rule. -/
def ruleValue (e : LemmaEntry) : RootRule → List String
  | RootRule.K => [e.lem]
  | RootRule.der d a => (pySplit ',' e.lem).map (fun s => pyCut s d ++ a)

/-- The pre-computed roots (`original_roots` in `getRoots`): root-id `"1"`
from a truthy `geninf`, root-id `"2"` from a truthy `perf`, each
comma-split. -/
def originalRoots (e : LemmaEntry) : List (String × List String) :=
  (if truthy e.geninf then [(("1" : String), pySplit ',' (e.geninf.getD ""))] else []) ++
  (if truthy e.perf then [(("2" : String), pySplit ',' (e.perf.getD ""))] else [])

/-- One iteration of `getRoots`'s loop over `model["R"].items()`. -/
def rootsStep (e : LemmaEntry) (acc : List (String × List String))
    (rid : String) (rule : RootRule) : List (String × List String) :=
  match rule with
  | RootRule.K => dictSet acc rid [e.lem]
  | RootRule.der d a =>
    let srcs :=
      bif rid != "1" && containsKey acc rid then (dlookup rid acc).getD []
      else pySplit ',' e.lem
    dictSet acc rid (srcs.map (fun s => pyCut s d ++ a))

/-- The loop of `getRoots` building `returned_roots` over the paradigm's
`R` table in insertion order. -/
def returnedRoots (e : LemmaEntry) : List (String × RootRule) →
    List (String × List String) → List (String × List String)
  | [], acc => acc
  | (rid, rule) :: rest, acc => returnedRoots e rest (rootsStep e acc rid rule)

/-- Embeds `LatinDecliner.getRoots(lemma, model=None)`: raise `UnknownLemma` when
the lemma is absent, resolve the paradigm (a `KeyError` when the lemma's
model name is unknown), then merge with
`original_roots.update(returned_roots)` and return `original_roots`. -/
def getRoots (lemmas : List (String × LemmaEntry)) (models : List (String × Model))
    (lem : String) (modelArg : Option Model) :
    Except Err (List (String × List String)) :=
  match dlookup lem lemmas with
  | none => Except.error Err.unknownLemma
  | some e =>
    match (match modelArg with | some m => some m | none => dlookup e.model models) with
    | none => Except.error Err.keyError
    | some m => Except.ok (dictUpdate (originalRoots e) (returnedRoots e m.R []))

/-! ## `LatinDecliner.decline` -/

/-- The per-tag form list built by the triple loop of `decline` step 2:
for each `(root_id, endings)` group of the tag, for each root of
`roots[root_id]` (a `KeyError` when absent), for each ending, append
`root + ending`. -/
def formsFor (roots : List (String × List String)) :
    List (String × List String) → List String → Except Err (List String)
  | [], acc => Except.ok acc
  | fr :: rest, acc =>
    match dlookup fr.1 roots with
    | none => Except.error Err.keyError
    | some rs =>
      formsFor roots rest (acc ++ ((rs.map (fun r => fr.2.map (fun en => r ++ en))).flatten))

/-- Building the `forms` dict of `decline` over the given key order. -/
def buildFormsKeys (roots : List (String × List String))
    (des : List (Nat × List (String × List String))) :
    List Nat → Except Err (List (Nat × List String))
  | [] => Except.ok []
  | k :: ks =>
    match formsFor roots ((dlookup k des).getD []) [] with
    | Except.error e2 => Except.error e2
    | Except.ok v =>
      match buildFormsKeys roots des ks with
      | Except.error e2 => Except.error e2
      | Except.ok rest => Except.ok ((k, v) :: rest)

/-- Steps 1–2 of `decline`: enumerate the paradigm's `des` tags in ascending
numeric order (`keys = sorted([int(key) for key in model["des"].keys()])`)
and fill each tag's form list. -/
def buildForms (roots : List (String × List String))
    (des : List (Nat × List (String × List String))) :
    Except Err (List (Nat × List String)) :=
  buildFormsKeys roots des (List.insertionSort (· ≤ ·) (des.map Prod.fst))

/-- The constant-suffix transformation of one tag's form list
(`new_forms += [form + sufd for form in iter_forms]`, outer loop over
`sufd`, inner over the forms). -/
def sufdApply (sufd : List String) (forms : List String) : List String :=
  (sufd.map (fun sfd => forms.map (fun f => f ++ sfd))).flatten

/-- The inner loop of the alternative-suffix pass: for each modified tag,
`forms[tag] += [f + suffix for f in cached_forms[tag]]`; a missing tag in
either dict is a `KeyError`. -/
def sufApplyTags (suffix : String) (cached : List (Nat × List String)) :
    List Nat → List (Nat × List String) → Except Err (List (Nat × List String))
  | [], fs => Except.ok fs
  | t :: ts, fs =>
    match dlookup t cached with
    | none => Except.error Err.keyError
    | some base =>
      bif containsKey fs t then
        sufApplyTags suffix cached ts
          (fs.map (fun p => bif p.1 == t then (p.1, p.2 ++ base.map (fun b => b ++ suffix)) else p))
      else Except.error Err.keyError

/-- The alternative-suffix pass of `decline`: iterate the paradigm's `suf`
sequence of `[suffix, [modified_tags]]` pairs, each appending suffixed
variants computed from the `cached_forms` snapshot. -/
def sufPass (cached : List (Nat × List String)) :
    List (String × List Nat) → List (Nat × List String) →
    Except Err (List (Nat × List String))
  | [], fs => Except.ok fs
  | (suffix, tags) :: rest, fs =>
    match sufApplyTags suffix cached tags fs with
    | Except.error e2 => Except.error e2
    | Except.ok fs2 => sufPass cached rest fs2

/-- Embeds `LatinDecliner.decline(lemma, flatten=False)`: raise `UnknownLemma`
when the lemma is absent, look up the paradigm, resolve roots, build the
per-tag forms in ascending tag order, run the constant-suffix pass
(guarded by `len(model["sufd"])`), snapshot `cached_forms`, run the
alternative-suffix pass, and delete every `abs` tag present. -/
def decline (lemmas : List (String × LemmaEntry)) (models : List (String × Model))
    (lem : String) : Except Err (List (Nat × List String)) :=
  match dlookup lem lemmas with
  | none => Except.error Err.unknownLemma
  | some e =>
    match dlookup e.model models with
    | none => Except.error Err.keyError
    | some m =>
      match getRoots lemmas models lem (some m) with
      | Except.error e2 => Except.error e2
      | Except.ok roots =>
        match buildForms roots m.des with
        | Except.error e2 => Except.error e2
        | Except.ok fs0 =>
          let fs1 := if m.sufd.length ≠ 0 then
              fs0.map (fun p => (p.1, sufdApply m.sufd p.2)) else fs0
          match sufPass fs1 m.suf fs1 with
          | Except.error e2 => Except.error e2
          | Except.ok fs2 =>
            Except.ok (if m.abs.length ≠ 0 then
                fs2.filter (fun p => !(m.abs.contains p.1)) else fs2)

/-- Embeds `LatinDecliner.decline(lemma, flatten=True)`: the same pipeline, then
`[form for case_forms in forms.values() for form in case_forms]` — the
concatenation of the per-tag lists in the dict's insertion order. -/
def declineFlatten (lemmas : List (String × LemmaEntry)) (models : List (String × Model))
    (lem : String) : Except Err (List String) :=
  match decline lemmas models lem with
  | Except.error e2 => Except.error e2
  | Except.ok fs => Except.ok ((fs.map Prod.snd).flatten)

/-! ## The model compiler (`convert_models` in `convert.py`)

The compiler's in-memory paradigm record is the dict
`{"R": {}, "abs": [], "des": {}, "suf": {}, "sufd": []}`; the directive
handlers below embed the branches of `convert_models`'s line loop.  Note
the types the handlers actually store: `des` maps a tag to one
`(root, endings)` pair, `suf` is a tag-to-suffix dict comprehension, and
`sufd` is assigned the raw remainder of the line (a string). -/

/-- The compiler's paradigm record, with the value shapes `convert_models`
actually stores.  The initial `"sufd": []` and the stored string are both
embedded in `sufd : String` (both are empty-iterable when untouched; a
`sufd:` line overwrites the field with the raw string). -/
structure CModel where
  R : List (String × (String × Option String))
  abs : List Nat
  des : List (Nat × (String × List String))
  suf : List (Nat × String)
  sufd : String
deriving DecidableEq, Repr

/-- The fresh paradigm allocated by a `modele:` line (`deepcopy(__model)`). -/
def cModelEmpty : CModel :=
  { R := [], abs := [], des := [], suf := [], sufd := "" }

/-- The fatal build-time failures of `convert_models` relevant here: the
`AttributeError` raised by `.groups()` when the `__des` regex does not
match, and the `ValueError`/unpacking errors raised inside `parse_range`
or a `tuple(...)` destructuring. -/
inductive CompileError where
  | noMatch
  | badRange
  | badSplit
deriving DecidableEq, Repr

/-- Character class `[\d\-,]` of the `__des` regex's `RANGE` group. -/
def isRangeChar (c : Char) : Bool :=
  c.isDigit || c == '-' || c == ','

/-- Character class `\w` (word character).  The engine's default paradigm
table is ASCII-folded, so the ASCII alphanumerics-plus-underscore reading
is used. -/
def isWordChar (c : Char) : Bool :=
  c.isAlphanum || c == '_'

/-- Character class `[\w\-,;]` of the `__des` regex's `ENDINGS` group. -/
def isDesChar (c : Char) : Bool :=
  isWordChar c || c == '-' || c == ',' || c == ';'

/-- The literal head `des[\+]?` of the `__des` regex. -/
def desHeadOk (h : List Char) : Bool :=
  h == ['d', 'e', 's'] || h == ['d', 'e', 's', '+']

/-- The anchored regex `^des[\+]?:(?P<range>[\d\-,]+):(?P<root>\d+):([\w\-,;]+)$`
of `convert_models`.  None of the three character classes admits `':'`, so
a match is exactly a four-way colon split whose segments pass their class
checks; `none` embeds a failed match (on which `.groups()` raises). -/
def desMatchChars (cs : List Char) : Option (List Char × List Char × List Char) :=
  match splitChars ':' cs with
  | [h, r, root, d] =>
    if desHeadOk h && !r.isEmpty && r.all isRangeChar &&
        !root.isEmpty && root.all Char.isDigit && !d.isEmpty && d.all isDesChar
    then some (r, root, d) else none
  | _ => none

/-- One comma-separated group of `parse_range`: either `start-end`
(expanded to the inclusive interval, Python `range(start, end + 1)`) or a
single integer.  `none` embeds the exceptions (`ValueError` from `int`, a
failed 2-tuple unpacking of the `-`-split). -/
def parseRangeGroup (g : String) : Option (List Nat) :=
  if g.data.contains '-' then
    match pySplit '-' g with
    | [a, b] =>
      match pyInt? a, pyInt? b with
      | some s, some e => some (List.range' s (e + 1 - s))
      | _, _ => none
    | _ => none
  else (pyInt? g).map (fun n => [n])

/-- Embeds `parse_range(des_number)`: split on commas and concatenate the groups'
expansions. -/
def parseRange (s : String) : Option (List Nat) :=
  ((pySplit ',' s).mapM parseRangeGroup).map List.flatten

/-- The `des`/`des+` branch of `convert_models`, applied to the line as it
stands after the macro-replacement block: match the `__des` regex (fatal
when it fails), `parse_range` the range (fatal when it raises), then
`for i, d in zip(ids, des.split(";")): models[last_model]["des"][int(i)] =
(root, d.replace("-", "").split(","))` — positional pairing truncated to
the shorter of the two lists, stored by dict update. -/
def processDesLine (m : CModel) (line : String) : Except CompileError CModel :=
  match desMatchChars line.data with
  | none => Except.error CompileError.noMatch
  | some (r, root, d) =>
    match parseRange (String.mk r) with
    | none => Except.error CompileError.badRange
    | some ids =>
      let newDes := (ids.zip (pySplit ';' (String.mk d))).foldl
        (fun acc p => dictSet acc p.1 (String.mk root, pySplit ',' (pyRemoveChar '-' p.2)))
        m.des
      Except.ok { m with des := newDes }

/-- The `suf:` branch of `convert_models`:
`rng, suf = tuple(line[4:].split(":"))` (fatal unless exactly two parts),
then `models[last_model]["suf"] = {i: suf for i in parse_range(rng)}` —
the field is replaced by a tag-to-suffix dict. -/
def processSufLine (m : CModel) (line : String) : Except CompileError CModel :=
  match pySplit ':' (pyDrop line 4) with
  | [rng, suf] =>
    match parseRange rng with
    | none => Except.error CompileError.badRange
    | some ids =>
      Except.ok { m with suf := ids.foldl (fun acc i => dictSet acc i suf) [] }
  | _ => Except.error CompileError.badSplit

/-- The `sufd:` branch of `convert_models`:
`models[last_model]["sufd"] = line[5:]` — the raw remainder of the line,
with no semicolon split. -/
def processSufdLine (m : CModel) (line : String) : CModel :=
  { m with sufd := pyDrop line 5 }


/-! ## Association-list dictionary lemmas -/

theorem beq_symm_false {α : Type} [BEq α] [LawfulBEq α] {a b : α}
    (h : (a == b) = false) : (b == a) = false := by
  cases hba : (b == a) with
  | false => rfl
  | true => rw [eq_of_beq hba] at h; simp at h

theorem beq_symm_true {α : Type} [BEq α] [LawfulBEq α] {a b : α}
    (h : (a == b) = true) : (b == a) = true := by
  rw [eq_of_beq h]; simp

theorem dlookup_map_set {α β : Type} [BEq α] [LawfulBEq α] (k : α) (v : β) :
    ∀ d : List (α × β), containsKey d k = true →
      dlookup k (d.map (fun p => bif p.1 == k then (k, v) else p)) = some v := by
  intro d
  induction d with
  | nil => intro hc; simp [containsKey] at hc
  | cons p rest ih =>
    intro hc
    obtain ⟨k1, v1⟩ := p
    cases h1 : (k1 == k) with
    | true => simp [dlookup, h1]
    | false =>
      have hc' : containsKey rest k = true := by simpa [containsKey, h1] using hc
      simpa [dlookup, h1, beq_symm_false h1] using ih hc'

theorem dlookup_map_set_ne {α β : Type} [BEq α] [LawfulBEq α] (k k' : α) (v : β)
    (h : k' ≠ k) :
    ∀ d : List (α × β),
      dlookup k' (d.map (fun p => bif p.1 == k then (k, v) else p)) = dlookup k' d := by
  intro d
  induction d with
  | nil => rfl
  | cons p rest ih =>
    obtain ⟨k1, v1⟩ := p
    cases h1 : (k1 == k) with
    | true =>
      have hk1 : k1 = k := eq_of_beq h1
      subst hk1
      have hkk : (k' == k1) = false := beq_eq_false_iff_ne.mpr h
      simp [dlookup, h1, hkk, ih]
    | false => simp [dlookup, h1, ih]

theorem dlookup_append_single {α β : Type} [BEq α] [LawfulBEq α] (k : α) (v : β) :
    ∀ d : List (α × β), containsKey d k = false →
      dlookup k (d ++ [(k, v)]) = some v := by
  intro d
  induction d with
  | nil => intro _; simp [dlookup]
  | cons p rest ih =>
    intro hc
    obtain ⟨k1, v1⟩ := p
    have h1 : (k1 == k) = false := by
      cases h1 : (k1 == k) with
      | false => rfl
      | true => simp [containsKey, h1] at hc
    have hc' : containsKey rest k = false := by
      simpa [containsKey, h1] using hc
    simpa [dlookup, beq_symm_false h1] using ih hc'

theorem dlookup_append_single_ne {α β : Type} [BEq α] [LawfulBEq α] (k k' : α) (v : β)
    (h : k' ≠ k) :
    ∀ d : List (α × β), dlookup k' (d ++ [(k, v)]) = dlookup k' d := by
  intro d
  induction d with
  | nil => simp [dlookup, beq_eq_false_iff_ne.mpr h]
  | cons p rest ih =>
    obtain ⟨k1, v1⟩ := p
    cases h1 : (k' == k1) with
    | true => simp [dlookup, h1]
    | false => simp [dlookup, h1, ih]

theorem dlookup_dictSet_self {α β : Type} [BEq α] [LawfulBEq α]
    (d : List (α × β)) (k : α) (v : β) :
    dlookup k (dictSet d k v) = some v := by
  unfold dictSet
  cases hc : containsKey d k with
  | true => simpa [hc] using dlookup_map_set k v d hc
  | false => simpa [hc] using dlookup_append_single k v d hc

theorem dlookup_dictSet_ne {α β : Type} [BEq α] [LawfulBEq α]
    (d : List (α × β)) (k k' : α) (v : β) (h : k' ≠ k) :
    dlookup k' (dictSet d k v) = dlookup k' d := by
  unfold dictSet
  cases hc : containsKey d k with
  | true => simpa [hc] using dlookup_map_set_ne k k' v h d
  | false => simpa [hc] using dlookup_append_single_ne k k' v h d

theorem containsKey_map_set {α β : Type} [BEq α] [LawfulBEq α] (k k' : α) (v : β) :
    ∀ d : List (α × β),
      containsKey (d.map (fun p => bif p.1 == k then (k, v) else p)) k' =
        containsKey d k' := by
  intro d
  induction d with
  | nil => rfl
  | cons p rest ih =>
    obtain ⟨k1, v1⟩ := p
    cases h1 : (k1 == k) with
    | true =>
      have hk1 : k1 = k := eq_of_beq h1
      subst hk1
      simp only [containsKey, List.any_cons] at ih ⊢
      simp [h1, ih]
    | false =>
      simp only [containsKey, List.any_cons] at ih ⊢
      simp [h1, ih]

theorem containsKey_dictSet_self {α β : Type} [BEq α] [LawfulBEq α]
    (d : List (α × β)) (k : α) (v : β) :
    containsKey (dictSet d k v) k = true := by
  unfold dictSet
  cases hc : containsKey d k with
  | true => simp only [Bool.cond_true]; rw [containsKey_map_set]; exact hc
  | false =>
    simp only [Bool.cond_false]
    simp [containsKey, List.any_append]

theorem containsKey_dictSet_ne {α β : Type} [BEq α] [LawfulBEq α]
    (d : List (α × β)) (k k' : α) (v : β) (h : k' ≠ k) :
    containsKey (dictSet d k v) k' = containsKey d k' := by
  unfold dictSet
  cases hc : containsKey d k with
  | true => simp only [Bool.cond_true]; exact containsKey_map_set k k' v d
  | false =>
    simp only [Bool.cond_false]
    simp [containsKey, List.any_append, beq_eq_false_iff_ne.mpr (Ne.symm h)]

theorem keys_dictSet_of_contains {α β : Type} [BEq α] [LawfulBEq α]
    (d : List (α × β)) (k : α) (v : β) (hc : containsKey d k = true) :
    (dictSet d k v).map Prod.fst = d.map Prod.fst := by
  unfold dictSet
  rw [hc]
  simp only [Bool.cond_true]
  clear hc
  induction d with
  | nil => rfl
  | cons p rest ih =>
    obtain ⟨k1, v1⟩ := p
    cases h1 : (k1 == k) with
    | true => simp [h1, ih, eq_of_beq h1]
    | false => simp [h1, ih]

theorem keys_dictSet_of_not {α β : Type} [BEq α] [LawfulBEq α]
    (d : List (α × β)) (k : α) (v : β) (hc : containsKey d k = false) :
    (dictSet d k v).map Prod.fst = d.map Prod.fst ++ [k] := by
  unfold dictSet
  rw [hc]
  simp

theorem containsKey_iff_dlookup {α β : Type} [BEq α] [LawfulBEq α]
    (k : α) : ∀ d : List (α × β),
    containsKey d k = true ↔ ∃ v, dlookup k d = some v := by
  intro d
  induction d with
  | nil => simp [containsKey, dlookup]
  | cons p rest ih =>
    obtain ⟨k1, v1⟩ := p
    cases h1 : (k1 == k) with
    | true =>
      simp only [containsKey, List.any_cons, h1, Bool.true_or, true_iff]
      exact ⟨v1, by simp [dlookup, beq_symm_true h1]⟩
    | false =>
      simp only [containsKey, List.any_cons, h1, Bool.false_or]
      rw [show (dlookup k ((k1, v1) :: rest) = dlookup k rest) by
        simp [dlookup, beq_symm_false h1]]
      exact ih

theorem dlookup_dictUpdate_not_mem {α β : Type} [BEq α] [LawfulBEq α]
    (k : α) : ∀ (d2 d : List (α × β)), (∀ p ∈ d2, p.1 ≠ k) →
    dlookup k (dictUpdate d d2) = dlookup k d := by
  intro d2
  induction d2 with
  | nil => intro d _; rfl
  | cons p rest ih =>
    intro d hp
    show dlookup k (dictUpdate (dictSet d p.1 p.2) rest) = _
    rw [ih (dictSet d p.1 p.2) (fun q hq => hp q (List.mem_cons_of_mem _ hq))]
    exact dlookup_dictSet_ne d p.1 k p.2 (Ne.symm (hp p (List.mem_cons_self ..)))

theorem dlookup_dictUpdate_right {α β : Type} [BEq α] [LawfulBEq α]
    (k : α) (v : β) : ∀ (d2 d : List (α × β)), (d2.map Prod.fst).Nodup →
    dlookup k d2 = some v → dlookup k (dictUpdate d d2) = some v := by
  intro d2
  induction d2 with
  | nil => intro d _ hl; simp [dlookup] at hl
  | cons p rest ih =>
    intro d hnd hl
    obtain ⟨k1, v1⟩ := p
    cases hk : (k == k1) with
    | true =>
      have hkk : k = k1 := eq_of_beq hk
      subst hkk
      rw [dlookup, hk] at hl
      simp only [cond_true] at hl
      injection hl with hv
      subst hv
      show dlookup k (dictUpdate (dictSet d k v1) rest) = some v1
      rw [dlookup_dictUpdate_not_mem k rest (dictSet d k v1) ?fresh]
      · exact dlookup_dictSet_self d k v1
      case fresh =>
        intro q hq hqk
        have hmem : k ∈ rest.map Prod.fst := hqk ▸ List.mem_map.mpr ⟨q, hq, rfl⟩
        exact (List.nodup_cons.mp (by simpa using hnd)).1 hmem
    | false =>
      rw [dlookup, hk] at hl
      simp only [cond_false] at hl
      exact ih (dictSet d k1 v1) (List.nodup_cons.mp (by simpa using hnd)).2 hl


/-! ## Lemmas about `getRoots` -/

theorem rootsStep_eq_dictSet (e : LemmaEntry) (acc : List (String × List String))
    (rid : String) (rule : RootRule) :
    ∃ v, rootsStep e acc rid rule = dictSet acc rid v := by
  cases rule with
  | K => exact ⟨[e.lem], rfl⟩
  | der d a => exact ⟨_, rfl⟩

theorem dlookup_rootsStep_ne (e : LemmaEntry) (acc : List (String × List String))
    (rid rid' : String) (rule : RootRule) (h : rid' ≠ rid) :
    dlookup rid' (rootsStep e acc rid rule) = dlookup rid' acc := by
  obtain ⟨v, hv⟩ := rootsStep_eq_dictSet e acc rid rule
  rw [hv]
  exact dlookup_dictSet_ne acc rid rid' v h

theorem containsKey_rootsStep_ne (e : LemmaEntry) (acc : List (String × List String))
    (rid rid' : String) (rule : RootRule) (h : rid' ≠ rid) :
    containsKey (rootsStep e acc rid rule) rid' = containsKey acc rid' := by
  obtain ⟨v, hv⟩ := rootsStep_eq_dictSet e acc rid rule
  rw [hv]
  exact containsKey_dictSet_ne acc rid rid' v h

theorem containsKey_rootsStep_self (e : LemmaEntry) (acc : List (String × List String))
    (rid : String) (rule : RootRule) :
    containsKey (rootsStep e acc rid rule) rid = true := by
  obtain ⟨v, hv⟩ := rootsStep_eq_dictSet e acc rid rule
  rw [hv]
  exact containsKey_dictSet_self acc rid v

theorem containsKey_rootsStep_mono (e : LemmaEntry) (acc : List (String × List String))
    (rid rid' : String) (rule : RootRule) (h : containsKey acc rid' = true) :
    containsKey (rootsStep e acc rid rule) rid' = true := by
  by_cases hr : rid' = rid
  · subst hr; exact containsKey_rootsStep_self e acc rid' rule
  · rw [containsKey_rootsStep_ne e acc rid rid' rule hr]; exact h

theorem keys_rootsStep_nodup (e : LemmaEntry) (acc : List (String × List String))
    (rid : String) (rule : RootRule) (h : (acc.map Prod.fst).Nodup) :
    ((rootsStep e acc rid rule).map Prod.fst).Nodup := by
  obtain ⟨v, hv⟩ := rootsStep_eq_dictSet e acc rid rule
  rw [hv]
  cases hc : containsKey acc rid with
  | true => rw [keys_dictSet_of_contains acc rid v hc]; exact h
  | false =>
    rw [keys_dictSet_of_not acc rid v hc]
    have hnm : rid ∉ acc.map Prod.fst := by
      intro hm
      obtain ⟨p, hp, hfst⟩ := List.mem_map.mp hm
      have : (p.1 == rid) = true := by simp [hfst]
      have : containsKey acc rid = true := by
        simp only [containsKey, List.any_eq_true]
        exact ⟨p, hp, this⟩
      simp [this] at hc
    simp [List.nodup_append, h, hnm]

theorem dlookup_returnedRoots_not_mem (e : LemmaEntry) :
    ∀ (R : List (String × RootRule)) (acc : List (String × List String)) (rid : String),
    rid ∉ R.map Prod.fst →
    dlookup rid (returnedRoots e R acc) = dlookup rid acc := by
  intro R
  induction R with
  | nil => intro acc rid _; rfl
  | cons pr rest ih =>
    intro acc rid hmem
    obtain ⟨rid1, rule1⟩ := pr
    have h1 : rid ≠ rid1 := by
      intro heq; exact hmem (by simp [heq])
    show dlookup rid (returnedRoots e rest (rootsStep e acc rid1 rule1)) = _
    rw [ih _ rid (fun hm => hmem (by simp [hm]))]
    exact dlookup_rootsStep_ne e acc rid1 rid rule1 h1

theorem containsKey_returnedRoots_mono (e : LemmaEntry) :
    ∀ (R : List (String × RootRule)) (acc : List (String × List String)) (rid : String),
    containsKey acc rid = true →
    containsKey (returnedRoots e R acc) rid = true := by
  intro R
  induction R with
  | nil => intro acc rid h; exact h
  | cons pr rest ih =>
    intro acc rid h
    obtain ⟨rid1, rule1⟩ := pr
    exact ih _ rid (containsKey_rootsStep_mono e acc rid1 rid rule1 h)

theorem containsKey_returnedRoots_of_mem (e : LemmaEntry) :
    ∀ (R : List (String × RootRule)) (acc : List (String × List String))
      (rid : String) (rule : RootRule), (rid, rule) ∈ R →
    containsKey (returnedRoots e R acc) rid = true := by
  intro R
  induction R with
  | nil => intro acc rid rule hmem; cases hmem
  | cons pr rest ih =>
    intro acc rid rule hmem
    obtain ⟨rid1, rule1⟩ := pr
    rcases List.mem_cons.mp hmem with heq | hmem'
    · injection heq with h1 h2
      subst h1
      exact containsKey_returnedRoots_mono e rest _ rid
        (containsKey_rootsStep_self e acc rid rule1)
    · exact ih _ rid rule hmem'

theorem keys_returnedRoots_nodup (e : LemmaEntry) :
    ∀ (R : List (String × RootRule)) (acc : List (String × List String)),
    (acc.map Prod.fst).Nodup →
    ((returnedRoots e R acc).map Prod.fst).Nodup := by
  intro R
  induction R with
  | nil => intro acc h; exact h
  | cons pr rest ih =>
    intro acc h
    obtain ⟨rid1, rule1⟩ := pr
    exact ih _ (keys_rootsStep_nodup e acc rid1 rule1 h)

theorem dlookup_returnedRoots_of_mem (e : LemmaEntry) :
    ∀ (R : List (String × RootRule)) (acc : List (String × List String))
      (rid : String) (rule : RootRule),
    (R.map Prod.fst).Nodup → (rid, rule) ∈ R → containsKey acc rid = false →
    dlookup rid (returnedRoots e R acc) = some (ruleValue e rule) := by
  intro R
  induction R with
  | nil => intro acc rid rule _ hmem _; cases hmem
  | cons pr rest ih =>
    intro acc rid rule hnd hmem hacc
    obtain ⟨rid1, rule1⟩ := pr
    rcases List.mem_cons.mp hmem with heq | hmem'
    · injection heq with h1 h2
      subst h1
      subst h2
      show dlookup rid (returnedRoots e rest (rootsStep e acc rid rule)) = _
      have hstep : dlookup rid (rootsStep e acc rid rule) = some (ruleValue e rule) := by
        cases rule with
        | K => exact dlookup_dictSet_self acc rid [e.lem]
        | der d a =>
          have hsrcs : (bif rid != "1" && containsKey acc rid
              then (dlookup rid acc).getD [] else pySplit ',' e.lem) = pySplit ',' e.lem := by
            rw [hacc]
            simp
          show dlookup rid (dictSet acc rid
            ((bif rid != "1" && containsKey acc rid
              then (dlookup rid acc).getD [] else pySplit ',' e.lem).map
                (fun s => pyCut s d ++ a))) = _
          rw [hsrcs, dlookup_dictSet_self]
          rfl
      rw [dlookup_returnedRoots_not_mem e rest _ rid
        (List.nodup_cons.mp (by simpa using hnd)).1]
      exact hstep
    · have hne : rid ≠ rid1 := by
        intro heq
        subst heq
        have hmm : rid ∈ rest.map Prod.fst := List.mem_map.mpr ⟨(rid, rule), hmem', rfl⟩
        exact (List.nodup_cons.mp (by simpa using hnd)).1 hmm
      show dlookup rid (returnedRoots e rest (rootsStep e acc rid1 rule1)) = _
      refine ih _ rid rule (List.nodup_cons.mp (by simpa using hnd)).2 hmem' ?_
      rw [containsKey_rootsStep_ne e acc rid1 rid rule1 hne]
      exact hacc

/-! ## Lemmas about `decline`'s phases -/

theorem formsFor_ne_unknown (roots : List (String × List String)) :
    ∀ (l : List (String × List String)) (acc : List String),
    formsFor roots l acc ≠ Except.error Err.unknownLemma := by
  intro l
  induction l with
  | nil => intro acc h; simp [formsFor] at h
  | cons fr rest ih =>
    intro acc h
    rw [formsFor] at h
    cases hl : dlookup fr.1 roots with
    | none => rw [hl] at h; simp at h
    | some rs => rw [hl] at h; exact ih _ h

theorem buildFormsKeys_ne_unknown (roots : List (String × List String))
    (des : List (Nat × List (String × List String))) :
    ∀ ks : List Nat, buildFormsKeys roots des ks ≠ Except.error Err.unknownLemma := by
  intro ks
  induction ks with
  | nil => intro h; simp [buildFormsKeys] at h
  | cons k rest ih =>
    intro h
    rw [buildFormsKeys] at h
    cases hf : formsFor roots ((dlookup k des).getD []) [] with
    | error e2 =>
      rw [hf] at h
      cases e2 with
      | unknownLemma => exact formsFor_ne_unknown roots _ _ hf
      | keyError => simp at h
    | ok v =>
      rw [hf] at h
      cases hb : buildFormsKeys roots des rest with
      | error e2 =>
        rw [hb] at h
        cases e2 with
        | unknownLemma => exact ih hb
        | keyError => simp at h
      | ok out => rw [hb] at h; simp at h

theorem sufApplyTags_ne_unknown (suffix : String) (cached : List (Nat × List String)) :
    ∀ (ts : List Nat) (fs : List (Nat × List String)),
    sufApplyTags suffix cached ts fs ≠ Except.error Err.unknownLemma := by
  intro ts
  induction ts with
  | nil => intro fs h; simp [sufApplyTags] at h
  | cons t rest ih =>
    intro fs h
    rw [sufApplyTags] at h
    cases hl : dlookup t cached with
    | none => rw [hl] at h; simp at h
    | some base =>
      rw [hl] at h
      cases hc : containsKey fs t with
      | true => rw [hc] at h; simp only [Bool.cond_true] at h; exact ih _ h
      | false => rw [hc] at h; simp at h

theorem sufPass_ne_unknown (cached : List (Nat × List String)) :
    ∀ (suf : List (String × List Nat)) (fs : List (Nat × List String)),
    sufPass cached suf fs ≠ Except.error Err.unknownLemma := by
  intro suf
  induction suf with
  | nil => intro fs h; simp [sufPass] at h
  | cons pr rest ih =>
    intro fs h
    obtain ⟨suffix, tags⟩ := pr
    rw [sufPass] at h
    cases ha : sufApplyTags suffix cached tags fs with
    | error e2 =>
      rw [ha] at h
      cases e2 with
      | unknownLemma => exact sufApplyTags_ne_unknown suffix cached tags fs ha
      | keyError => simp at h
    | ok fs2 => rw [ha] at h; exact ih _ h

theorem map_fst_pair_map {β : Type} (g : Nat × β → β) (l : List (Nat × β)) :
    (l.map (fun p => (p.1, g p))).map Prod.fst = l.map Prod.fst := by
  induction l with
  | nil => rfl
  | cons p rest ih => simp [ih]

theorem map_fst_bif_set {β : Type} (t : Nat) (g : Nat × β → β) (fs : List (Nat × β)) :
    (fs.map (fun p => bif p.1 == t then (p.1, g p) else p)).map Prod.fst =
      fs.map Prod.fst := by
  induction fs with
  | nil => rfl
  | cons p rest ih =>
    cases h1 : (p.1 == t) with
    | true => simp [h1, ih]
    | false => simp [h1, ih]

theorem buildFormsKeys_fst (roots : List (String × List String))
    (des : List (Nat × List (String × List String))) :
    ∀ (ks : List Nat) (out : List (Nat × List String)),
    buildFormsKeys roots des ks = Except.ok out → out.map Prod.fst = ks := by
  intro ks
  induction ks with
  | nil =>
    intro out h
    rw [buildFormsKeys] at h
    injection h with h2
    rw [← h2]
    rfl
  | cons k rest ih =>
    intro out h
    rw [buildFormsKeys] at h
    cases hf : formsFor roots ((dlookup k des).getD []) [] with
    | error e2 => rw [hf] at h; simp at h
    | ok v =>
      rw [hf] at h
      cases hb : buildFormsKeys roots des rest with
      | error e2 => rw [hb] at h; simp at h
      | ok rest2 =>
        rw [hb] at h
        injection h with h2
        rw [← h2]
        simp [ih rest2 hb]

theorem sufApplyTags_fst (suffix : String) (cached : List (Nat × List String)) :
    ∀ (ts : List Nat) (fs out : List (Nat × List String)),
    sufApplyTags suffix cached ts fs = Except.ok out →
    out.map Prod.fst = fs.map Prod.fst := by
  intro ts
  induction ts with
  | nil =>
    intro fs out h
    rw [sufApplyTags] at h
    injection h with h2
    rw [h2]
  | cons t rest ih =>
    intro fs out h
    rw [sufApplyTags] at h
    cases hl : dlookup t cached with
    | none => rw [hl] at h; simp at h
    | some base =>
      rw [hl] at h
      cases hc : containsKey fs t with
      | false => rw [hc] at h; simp at h
      | true =>
        rw [hc] at h
        simp only [Bool.cond_true] at h
        rw [ih _ out h]
        exact map_fst_bif_set t _ fs

theorem sufPass_fst (cached : List (Nat × List String)) :
    ∀ (suf : List (String × List Nat)) (fs out : List (Nat × List String)),
    sufPass cached suf fs = Except.ok out →
    out.map Prod.fst = fs.map Prod.fst := by
  intro suf
  induction suf with
  | nil =>
    intro fs out h
    rw [sufPass] at h
    injection h with h2
    rw [h2]
  | cons pr rest ih =>
    intro fs out h
    obtain ⟨suffix, tags⟩ := pr
    rw [sufPass] at h
    cases ha : sufApplyTags suffix cached tags fs with
    | error e2 => rw [ha] at h; simp at h
    | ok fs2 =>
      rw [ha] at h
      rw [ih fs2 out h]
      exact sufApplyTags_fst suffix cached tags fs fs2 ha

/-! ## Lemmas about the compiler's `des`-line processing -/

theorem splitChars_ne_nil (sep : Char) (cs : List Char) : splitChars sep cs ≠ [] := by
  cases cs with
  | nil => simp [splitChars]
  | cons c cs =>
    rw [splitChars]
    split
    · simp
    · split
      · simp
      · simp

theorem mem_splitChars (sep c : Char) (hne : c ≠ sep) :
    ∀ cs : List Char, c ∈ cs → ∃ part ∈ splitChars sep cs, c ∈ part := by
  intro cs
  induction cs with
  | nil => intro h; cases h
  | cons c0 cs ih =>
    intro hmem
    rw [splitChars]
    rcases List.mem_cons.mp hmem with heq | hmem'
    · subst heq
      rw [if_neg hne]
      rcases hsp : splitChars sep cs with _ | ⟨h1, t1⟩
      · exact absurd hsp (splitChars_ne_nil sep cs)
      · exact ⟨c :: h1, List.mem_cons_self .., List.mem_cons_self ..⟩
    · by_cases hc0 : c0 = sep
      · rw [if_pos hc0]
        obtain ⟨part, hp, hcp⟩ := ih hmem'
        exact ⟨part, List.mem_cons_of_mem _ hp, hcp⟩
      · rw [if_neg hc0]
        obtain ⟨part, hp, hcp⟩ := ih hmem'
        rcases hsp : splitChars sep cs with _ | ⟨h1, t1⟩
        · exact absurd hsp (splitChars_ne_nil sep cs)
        · rw [hsp] at hp
          rcases List.mem_cons.mp hp with heq1 | hp'
          · subst heq1
            exact ⟨c0 :: part, List.mem_cons_self .., List.mem_cons_of_mem _ hcp⟩
          · exact ⟨part, List.mem_cons_of_mem _ hp', hcp⟩

theorem desMatchChars_dollar (cs : List Char) (hd : '$' ∈ cs) :
    desMatchChars cs = none := by
  obtain ⟨part, hpart, hdol⟩ := mem_splitChars ':' '$' (by decide) cs hd
  rw [desMatchChars]
  split
  case h_1 h r root d heq =>
    rw [heq] at hpart
    rw [if_neg]
    intro hcond
    simp only [Bool.and_eq_true] at hcond
    obtain ⟨⟨⟨⟨⟨⟨hhead, _⟩, hr⟩, _⟩, hroot⟩, _⟩, hdes⟩ := hcond
    have hparts : part = h ∨ part = r ∨ part = root ∨ part = d := by
      simpa using hpart
    rcases hparts with rfl | rfl | rfl | rfl
    · rw [desHeadOk] at hhead
      rcases Bool.or_eq_true_iff.mp hhead with h1 | h1
      · rw [show part = ['d', 'e', 's'] from by simpa using h1] at hdol
        simp at hdol
      · rw [show part = ['d', 'e', 's', '+'] from by simpa using h1] at hdol
        simp at hdol
    · have := List.all_eq_true.mp hr '$' hdol
      simp [isRangeChar] at this
    · have := List.all_eq_true.mp hroot '$' hdol
      simp at this
    · have := List.all_eq_true.mp hdes '$' hdol
      simp [isDesChar, isWordChar] at this
  case h_2 => rfl

theorem map_fst_zip_sublist {α β : Type} :
    ∀ (l1 : List α) (l2 : List β), List.Sublist ((l1.zip l2).map Prod.fst) l1 := by
  intro l1
  induction l1 with
  | nil => intro l2; simp
  | cons a l1 ih =>
    intro l2
    cases l2 with
    | nil => simp
    | cons b l2 =>
      simp only [List.zip_cons_cons, List.map_cons]
      exact List.Sublist.cons₂ a (ih l2)

theorem foldl_dictSet_fresh {α β γ : Type} [BEq α] [LawfulBEq α] (g : α × γ → β) :
    ∀ (ps : List (α × γ)) (d : List (α × β)),
    (ps.map Prod.fst).Nodup → (∀ p ∈ ps, containsKey d p.1 = false) →
    ps.foldl (fun acc p => dictSet acc p.1 (g p)) d = d ++ ps.map (fun p => (p.1, g p)) := by
  intro ps
  induction ps with
  | nil => intro d _ _; simp
  | cons p rest ih =>
    intro d hnd hfresh
    simp only [List.foldl_cons]
    have hp : containsKey d p.1 = false := hfresh p (List.mem_cons_self ..)
    have hset : dictSet d p.1 (g p) = d ++ [(p.1, g p)] := by
      rw [dictSet, hp]
      simp
    rw [hset, ih (d ++ [(p.1, g p)]) (List.nodup_cons.mp (by simpa using hnd)).2 ?fresh]
    · simp
    case fresh =>
      intro q hq
      have hqp : (p.1 == q.1) = false := by
        refine beq_eq_false_iff_ne.mpr ?_
        intro heq
        have hqm : q.1 ∈ rest.map Prod.fst := List.mem_map.mpr ⟨q, hq, rfl⟩
        rw [← heq] at hqm
        exact (List.nodup_cons.mp (by simpa using hnd)).1 hqm
      have h1 : containsKey d q.1 = false := hfresh q (List.mem_cons_of_mem _ hq)
      simp only [containsKey] at h1 ⊢
      simp [List.any_append, h1, hqp]

/-! ## Claim theorems -/

/-- Claim C1, counterexample.  The claim says that when both a pre-computed
root (`geninf` for root-id "1") and a derivation rule for the same root-id
exist, `getRoots` returns the pre-computed value.  At the concrete input
below (`geninf = "X"`, rule `(1, "")` for root-id "1"), `getRoots` returns
the derived root `"uit"`, not the pre-computed `"X"`: the merge
`original_roots.update(returned_roots)` lets derived roots overwrite the
pre-computed ones. -/
theorem c1_counterexample :
    getRoots
      [(("uita" : String),
        { lem := "uita", model := "m", geninf := some "X", perf := none })]
      [(("m" : String),
        { R := [(("1" : String), RootRule.der 1 "")],
          des := [], abs := [], sufd := [], suf := [] })]
      ("uita") none = Except.ok [(("1" : String), ["uit"])] ∧
    (["uit"] : List String) ≠ ["X"] :=
  ⟨rfl, by decide⟩

/-- Claim C1, amended: for every lemma and every root-id for which the
paradigm's `R` loop produced a derived root, `getRoots` returns that
derived value — the merge `original_roots.update(returned_roots)` of step 5
gives the derived roots precedence, overwriting any pre-computed
`geninf`/`perf` entry for the same root-id; pre-computed roots survive only
for root-ids the paradigm does not derive. -/
theorem c1_derived_precedence (lemmas : List (String × LemmaEntry))
    (models : List (String × Model)) (lem : String) (e : LemmaEntry) (m : Model)
    (rid : String) (out : List (String × List String))
    (he : dlookup lem lemmas = some e)
    (hder : containsKey (returnedRoots e m.R []) rid = true)
    (hok : getRoots lemmas models lem (some m) = Except.ok out) :
    dlookup rid out = dlookup rid (returnedRoots e m.R []) := by
  simp only [getRoots, he, Except.ok.injEq] at hok
  subst hok
  obtain ⟨v, hv⟩ := (containsKey_iff_dlookup rid (returnedRoots e m.R [])).mp hder
  rw [hv]
  exact dlookup_dictUpdate_right rid v (returnedRoots e m.R []) (originalRoots e)
    (keys_returnedRoots_nodup e m.R [] (by simp)) hv

/-- Claim C1, witness for the amended theorem: lemma `amo` with a truthy
`geninf` and a paradigm rule for root-id "1"; the result holds the derived
root `"amor"`, not the pre-computed `"amav"`. -/
theorem c1_derived_precedence_witness :
    dlookup ("amo")
      [(("amo" : String),
        ({ lem := "amo", model := "m", geninf := some "amav", perf := none } : LemmaEntry))] =
      some { lem := "amo", model := "m", geninf := some "amav", perf := none } ∧
    containsKey (returnedRoots
      { lem := "amo", model := "m", geninf := some "amav", perf := none }
      [(("1" : String), RootRule.der 1 "or")] []) ("1") = true ∧
    getRoots
      [(("amo" : String),
        { lem := "amo", model := "m", geninf := some "amav", perf := none })]
      []
      ("amo")
      (some { R := [(("1" : String), RootRule.der 1 "or")],
              des := [], abs := [], sufd := [], suf := [] }) =
      Except.ok [(("1" : String), ["amor"])] ∧
    dlookup ("1") [(("1" : String), ["amor"])] =
      dlookup ("1") (returnedRoots
        { lem := "amo", model := "m", geninf := some "amav", perf := none }
        [(("1" : String), RootRule.der 1 "or")] []) :=
  ⟨rfl, rfl, rfl,
   c1_derived_precedence
     [(("amo" : String),
       { lem := "amo", model := "m", geninf := some "amav", perf := none })]
     []
     ("amo")
     { lem := "amo", model := "m", geninf := some "amav", perf := none }
     { R := [(("1" : String), RootRule.der 1 "or")],
       des := [], abs := [], sufd := [], suf := [] }
     ("1")
     [(("1" : String), ["amor"])]
     rfl rfl rfl⟩

/-- Claim C2, the code evaluated at the failing input.  For a derivation
rule with `deletion = 0` the code computes `lemma_root[:-0]`, which is the
empty string in Python, so the emitted root is just the addition `"x"` —
not `"uita" ++ "x"` as the claim (and the remove-`deletion`-characters
semantics documented in `convert.py`) requires.  For `deletion ≥ 1` the
slice matches the claim (third conjunct, `getRoots("vita")`-style). -/
theorem c2_deletion_zero_bug :
    getRoots
      [(("uita" : String),
        { lem := "uita", model := "m", geninf := none, perf := none })]
      [(("m" : String),
        { R := [(("1" : String), RootRule.der 0 "x")],
          des := [], abs := [], sufd := [], suf := [] })]
      ("uita") none = Except.ok [(("1" : String), ["x"])] ∧
    ("x" : String) ≠ "uita" ++ "x" ∧
    pyCut ("uita") 1 ++ "" = "uit" :=
  ⟨rfl, by decide, rfl⟩

/-- Claim C3, the code evaluated at the failing input.  `convert_models`
stores the `sufd:` payload as the raw string — no semicolon split (first
conjunct) — and `decline`'s loop `for sufd in model["sufd"]` then iterates
that string character by character, so each form is extended with single
characters instead of whole alternates (second conjunct); with the
semicolon-split alternates the claim describes, the pass would produce the
grouped cross product the module's own `quicumque` test expects (third
conjunct). -/
theorem c3_sufd_raw_string_bug :
    (processSufdLine cModelEmpty ("sufd:cumque;cunque")).sufd = "cumque;cunque" ∧
    sufdApply (pyStrIter "cumque;cunque") ["cujus"] ≠ ["cujuscumque", "cujuscunque"] ∧
    sufdApply ["cumque", "cunque"] ["cujus"] = ["cujuscumque", "cujuscunque"] :=
  ⟨rfl, by decide, rfl⟩

/-- Claim C4, the code evaluated at the failing input.  The compiler stores
`suf` as a tag-to-suffix mapping (first conjunct: the compiled value of
`suf:13-16:ine`), while `decline` consumes a sequence of
`[suffix, [modified_tags]]` pairs — on that consumed format the pass
appends `base + suffix` and keeps the original forms (second conjunct).
The two shapes are incompatible, so on a compiler-produced paradigm the
claimed per-tag append never happens (the loop unpacks a tag key where a
`(suffix, tags)` pair is expected and fails). -/
theorem c4_suf_format_mismatch :
    processSufLine cModelEmpty ("suf:13-16:ine") =
      Except.ok { cModelEmpty with
        suf := [(13, "ine"), (14, "ine"), (15, "ine"), (16, "ine")] } ∧
    sufPass [(13, ["haec"])] [(("ine" : String), [13])] [(13, ["haec"])] =
      Except.ok [(13, ["haec", "haecine"])] :=
  ⟨rfl, rfl⟩

/-- Claim C5: every `des`/`des+` line that still contains a `$` character
after the macro-expansion passes is fatal to the compiler — the `__des`
regex cannot match a line containing `$` (no character class admits it),
`.groups()` raises on the failed match, and nothing is stored in the
paradigm table. -/
theorem c5_unexpanded_macro_fatal (m : CModel) (line : String)
    (hd : '$' ∈ line.data) :
    processDesLine m line = Except.error CompileError.noMatch := by
  rw [processDesLine, desMatchChars_dollar line.data hd]

/-- Claim C5, witness at the concrete line `des:1:1:$a`. -/
theorem c5_unexpanded_macro_fatal_witness :
    ('$' ∈ ("des:1:1:$a").data) ∧
    processDesLine cModelEmpty ("des:1:1:$a") = Except.error CompileError.noMatch :=
  ⟨by decide, c5_unexpanded_macro_fatal cModelEmpty ("des:1:1:$a") (by decide)⟩

/-- Claim C6: for every lemma entry and every rule of its paradigm's `R`
table (keys unique, as for a Python dict), the `K` sentinel emits the
single-element list holding the citation form verbatim — never split on
commas — whereas a derivation rule (which, with unique keys, never finds a
prior entry for its root-id) comma-splits the citation form into variant
source strings before deriving; the emitted entries survive the final
merge (`ruleValue` spells out the two behaviours). -/
theorem c6_K_verbatim_der_split (lemmas : List (String × LemmaEntry))
    (models : List (String × Model)) (lem : String) (e : LemmaEntry) (m : Model)
    (rid : String) (rule : RootRule) (out : List (String × List String))
    (he : dlookup lem lemmas = some e)
    (hnd : (m.R.map Prod.fst).Nodup)
    (hmem : (rid, rule) ∈ m.R)
    (hok : getRoots lemmas models lem (some m) = Except.ok out) :
    dlookup rid out = some (ruleValue e rule) := by
  simp only [getRoots, he, Except.ok.injEq] at hok
  subst hok
  have hret : dlookup rid (returnedRoots e m.R []) = some (ruleValue e rule) :=
    dlookup_returnedRoots_of_mem e m.R [] rid rule hnd hmem rfl
  exact dlookup_dictUpdate_right rid (ruleValue e rule) (returnedRoots e m.R [])
    (originalRoots e) (keys_returnedRoots_nodup e m.R [] (by simp)) hret

/-- Claim C6, witness: the lemma entry `a,b` with a `K` rule for root-id
"0" and a derivation rule for root-id "1"; root "0" is the citation form
verbatim (`"a,b"`, unsplit), root "1" is derived from the comma-split
variants (two sources, giving two derived roots). -/
theorem c6_K_verbatim_der_split_witness :
    dlookup ("a,b")
      [(("a,b" : String),
        ({ lem := "a,b", model := "m", geninf := some "G", perf := none } : LemmaEntry))] =
      some { lem := "a,b", model := "m", geninf := some "G", perf := none } ∧
    ((([(("0" : String), RootRule.K), (("1" : String), RootRule.der 1 "z")] :
        List (String × RootRule)).map Prod.fst).Nodup) ∧
    ((("0" : String), RootRule.K) ∈
      ([(("0" : String), RootRule.K), (("1" : String), RootRule.der 1 "z")] :
        List (String × RootRule))) ∧
    getRoots
      [(("a,b" : String),
        { lem := "a,b", model := "m", geninf := some "G", perf := none })]
      []
      ("a,b")
      (some { R := [(("0" : String), RootRule.K), (("1" : String), RootRule.der 1 "z")],
              des := [], abs := [], sufd := [], suf := [] }) =
      Except.ok [(("1" : String), ["z", "z"]), (("0" : String), ["a,b"])] ∧
    dlookup ("0") [(("1" : String), ["z", "z"]), (("0" : String), ["a,b"])] =
      some (ruleValue
        { lem := "a,b", model := "m", geninf := some "G", perf := none } RootRule.K) :=
  ⟨rfl, by decide, by decide, rfl,
   c6_K_verbatim_der_split
     [(("a,b" : String),
       { lem := "a,b", model := "m", geninf := some "G", perf := none })]
     []
     ("a,b")
     { lem := "a,b", model := "m", geninf := some "G", perf := none }
     { R := [(("0" : String), RootRule.K), (("1" : String), RootRule.der 1 "z")],
       des := [], abs := [], sufd := [], suf := [] }
     ("0") RootRule.K
     [(("1" : String), ["z", "z"]), (("0" : String), ["a,b"])]
     rfl (by decide) (by decide) rfl⟩

/-- Claim C7: `UnknownLemma` is raised exactly when the queried string is
not a key of the loaded lemma table — by `getRoots`, by `decline`, and by
`decline` with flattening — and it is the only way either operation
produces that error; for a present lemma no path yields `UnknownLemma`
(internal dict misses surface as `KeyError`, a different error). -/
theorem c7_unknown_lemma_iff (lemmas : List (String × LemmaEntry))
    (models : List (String × Model)) (lem : String) :
    (getRoots lemmas models lem none = Except.error Err.unknownLemma ↔
      dlookup lem lemmas = none) ∧
    (decline lemmas models lem = Except.error Err.unknownLemma ↔
      dlookup lem lemmas = none) ∧
    (declineFlatten lemmas models lem = Except.error Err.unknownLemma ↔
      dlookup lem lemmas = none) := by
  cases hl : dlookup lem lemmas with
  | none =>
    have h1 : getRoots lemmas models lem none = Except.error Err.unknownLemma := by
      simp only [getRoots, hl]
    have h2 : decline lemmas models lem = Except.error Err.unknownLemma := by
      simp only [decline, hl]
    have h3 : declineFlatten lemmas models lem = Except.error Err.unknownLemma := by
      rw [declineFlatten, h2]
    exact ⟨iff_of_true h1 rfl, iff_of_true h2 rfl, iff_of_true h3 rfl⟩
  | some e =>
    have hg : getRoots lemmas models lem none ≠ Except.error Err.unknownLemma := by
      intro h
      simp only [getRoots, hl] at h
      cases hm : dlookup e.model models with
      | none => rw [hm] at h; simp at h
      | some m => rw [hm] at h; simp at h
    have hd : decline lemmas models lem ≠ Except.error Err.unknownLemma := by
      intro h
      simp only [decline, hl] at h
      cases hm : dlookup e.model models with
      | none => rw [hm] at h; simp at h
      | some m =>
        simp only [hm] at h
        simp only [show getRoots lemmas models lem (some m) =
            Except.ok (dictUpdate (originalRoots e) (returnedRoots e m.R [])) from by
          simp only [getRoots, hl]] at h
        cases hb : buildForms (dictUpdate (originalRoots e) (returnedRoots e m.R []))
            m.des with
        | error e2 =>
          simp only [hb] at h
          simp only [buildForms] at hb
          cases e2 with
          | unknownLemma => exact buildFormsKeys_ne_unknown _ _ _ hb
          | keyError => simp at h
        | ok fs0 =>
          simp only [hb] at h
          cases hs : sufPass
              (if m.sufd.length ≠ 0 then
                fs0.map (fun p => (p.1, sufdApply m.sufd p.2)) else fs0) m.suf
              (if m.sufd.length ≠ 0 then
                fs0.map (fun p => (p.1, sufdApply m.sufd p.2)) else fs0) with
          | error e2 =>
            simp only [hs] at h
            cases e2 with
            | unknownLemma => exact sufPass_ne_unknown _ _ _ hs
            | keyError => simp at h
          | ok fs2 => simp only [hs] at h; simp at h
    have hf : declineFlatten lemmas models lem ≠ Except.error Err.unknownLemma := by
      intro h
      rw [declineFlatten] at h
      cases hd2 : decline lemmas models lem with
      | error e2 =>
        rw [hd2] at h
        cases e2 with
        | unknownLemma => exact hd hd2
        | keyError => simp at h
      | ok fs => rw [hd2] at h; simp at h
    exact ⟨iff_of_false hg (by simp), iff_of_false hd (by simp),
      iff_of_false hf (by simp)⟩

theorem list_contains_iff_mem (l : List Nat) (t : Nat) :
    l.contains t = true ↔ t ∈ l := by
  simp [List.contains]

/-- Claim C8: no tag of the paradigm's `abs` set is a key of the mapping
`decline` returns — the final pass deletes every `abs` tag that is present
and never re-adds it, so an `abs` tag is absent from the result whether or
not the `des` tables populated it. -/
theorem c8_abs_tags_removed (lemmas : List (String × LemmaEntry))
    (models : List (String × Model)) (lem : String) (e : LemmaEntry) (m : Model)
    (t : Nat) (fs : List (Nat × List String))
    (he : dlookup lem lemmas = some e)
    (hm : dlookup e.model models = some m)
    (ht : t ∈ m.abs)
    (hok : decline lemmas models lem = Except.ok fs) :
    t ∉ fs.map Prod.fst := by
  simp only [decline, he, hm] at hok
  simp only [show getRoots lemmas models lem (some m) =
      Except.ok (dictUpdate (originalRoots e) (returnedRoots e m.R [])) from by
    simp only [getRoots, he]] at hok
  cases hb : buildForms (dictUpdate (originalRoots e) (returnedRoots e m.R []))
      m.des with
  | error e2 => simp only [hb] at hok; simp at hok
  | ok fs0 =>
    simp only [hb] at hok
    cases hs : sufPass
        (if m.sufd.length ≠ 0 then
          fs0.map (fun p => (p.1, sufdApply m.sufd p.2)) else fs0) m.suf
        (if m.sufd.length ≠ 0 then
          fs0.map (fun p => (p.1, sufdApply m.sufd p.2)) else fs0) with
    | error e2 => simp only [hs] at hok; simp at hok
    | ok fs2 =>
      simp only [hs, Except.ok.injEq] at hok
      have habs : m.abs.length ≠ 0 := by
        intro h0
        rw [List.length_eq_zero] at h0
        rw [h0] at ht
        cases ht
      rw [if_pos habs] at hok
      subst hok
      intro hmem
      obtain ⟨p, hp, hfst⟩ := List.mem_map.mp hmem
      have hfil := (List.mem_filter.mp hp).2
      rw [hfst] at hfil
      rw [Bool.not_eq_true'] at hfil
      have hc : m.abs.contains t = true := (list_contains_iff_mem m.abs t).mpr ht
      rw [hc] at hfil
      cases hfil

/-- Claim C8, witness: a paradigm with `des` tags 1 and 4 and `abs = [4]`;
the declined result keeps tag 1 only, and 4 is not among its keys. -/
theorem c8_abs_tags_removed_witness :
    dlookup ("uita")
      [(("uita" : String),
        ({ lem := "uita", model := "m", geninf := none, perf := none } : LemmaEntry))] =
      some { lem := "uita", model := "m", geninf := none, perf := none } ∧
    dlookup ("m")
      [(("m" : String),
        ({ R := [(("1" : String), RootRule.der 1 "")],
           des := [(1, [(("1" : String), ["a"])]), (4, [(("1" : String), ["ae"])])],
           abs := [4], sufd := [], suf := [] } : Model))] =
      some { R := [(("1" : String), RootRule.der 1 "")],
             des := [(1, [(("1" : String), ["a"])]), (4, [(("1" : String), ["ae"])])],
             abs := [4], sufd := [], suf := [] } ∧
    ((4 : Nat) ∈ ([4] : List Nat)) ∧
    decline
      [(("uita" : String),
        { lem := "uita", model := "m", geninf := none, perf := none })]
      [(("m" : String),
        { R := [(("1" : String), RootRule.der 1 "")],
          des := [(1, [(("1" : String), ["a"])]), (4, [(("1" : String), ["ae"])])],
          abs := [4], sufd := [], suf := [] })]
      ("uita") = Except.ok [(1, ["uita"])] ∧
    ((4 : Nat) ∉ ([(1, ["uita"])] : List (Nat × List String)).map Prod.fst) :=
  ⟨rfl, rfl, by decide, rfl,
   c8_abs_tags_removed
     [(("uita" : String),
       { lem := "uita", model := "m", geninf := none, perf := none })]
     [(("m" : String),
       { R := [(("1" : String), RootRule.der 1 "")],
         des := [(1, [(("1" : String), ["a"])]), (4, [(("1" : String), ["ae"])])],
         abs := [4], sufd := [], suf := [] })]
     ("uita")
     { lem := "uita", model := "m", geninf := none, perf := none }
     { R := [(("1" : String), RootRule.der 1 "")],
       des := [(1, [(("1" : String), ["a"])]), (4, [(("1" : String), ["ae"])])],
       abs := [4], sufd := [], suf := [] }
     4 [(1, ["uita"])]
     rfl rfl (by decide) rfl⟩

/-- Claim C9: whenever `decline` succeeds, the flattening variant returns
exactly the concatenation of the per-tag lists of the non-flattened result
in the order they appear, and the result's tags are in ascending numeric
order (the `forms` dict is built over `sorted(...)` keys and every later
pass preserves, or only filters, that key order) — so the flattened list is
the concatenation over the result's tags in ascending order, preserving
each list's internal order. -/
theorem c9_flatten_ascending (lemmas : List (String × LemmaEntry))
    (models : List (String × Model)) (lem : String)
    (fs : List (Nat × List String))
    (hok : decline lemmas models lem = Except.ok fs) :
    declineFlatten lemmas models lem = Except.ok ((fs.map Prod.snd).flatten) ∧
    (fs.map Prod.fst).Sorted (· ≤ ·) := by
  constructor
  · rw [declineFlatten, hok]
  · simp only [decline] at hok
    cases hl : dlookup lem lemmas with
    | none => simp only [hl] at hok; simp at hok
    | some e =>
      simp only [hl] at hok
      cases hm : dlookup e.model models with
      | none => simp only [hm] at hok; simp at hok
      | some m =>
        simp only [hm] at hok
        cases hr : getRoots lemmas models lem (some m) with
        | error e2 => simp only [hr] at hok; simp at hok
        | ok roots =>
          simp only [hr] at hok
          cases hb : buildForms roots m.des with
          | error e2 => simp only [hb] at hok; simp at hok
          | ok fs0 =>
            simp only [hb] at hok
            cases hs : sufPass
                (if m.sufd.length ≠ 0 then
                  fs0.map (fun p => (p.1, sufdApply m.sufd p.2)) else fs0) m.suf
                (if m.sufd.length ≠ 0 then
                  fs0.map (fun p => (p.1, sufdApply m.sufd p.2)) else fs0) with
            | error e2 => simp only [hs] at hok; simp at hok
            | ok fs2 =>
              simp only [hs, Except.ok.injEq] at hok
              subst hok
              have hb2 : buildFormsKeys roots m.des
                  (List.insertionSort (· ≤ ·) (m.des.map Prod.fst)) =
                  Except.ok fs0 := hb
              have h0 : fs0.map Prod.fst =
                  List.insertionSort (· ≤ ·) (m.des.map Prod.fst) :=
                buildFormsKeys_fst roots m.des _ fs0 hb2
              have h1 : (if m.sufd.length ≠ 0 then
                  fs0.map (fun p => (p.1, sufdApply m.sufd p.2)) else fs0).map Prod.fst =
                  fs0.map Prod.fst := by
                split
                · exact map_fst_pair_map _ fs0
                · rfl
              have h2 : fs2.map Prod.fst = fs0.map Prod.fst := by
                rw [sufPass_fst _ _ _ _ hs, h1]
              have hsorted : (fs2.map Prod.fst).Sorted (· ≤ ·) := by
                rw [h2, h0]
                exact List.sorted_insertionSort _ _
              split
              · exact hsorted.sublist ((List.filter_sublist _).map Prod.fst)
              · exact hsorted

/-- Claim C9, witness: a one-root, two-tag paradigm; the flattened result
equals the concatenation of the per-tag lists and the keys are ascending. -/
theorem c9_flatten_ascending_witness :
    decline
      [(("uita" : String),
        { lem := "uita", model := "m", geninf := none, perf := none })]
      [(("m" : String),
        { R := [(("1" : String), RootRule.der 1 "")],
          des := [(4, [(("1" : String), ["ae"])]), (1, [(("1" : String), ["a"])])],
          abs := [], sufd := [], suf := [] })]
      ("uita") = Except.ok [(1, ["uita"]), (4, ["uitae"])] ∧
    (declineFlatten
      [(("uita" : String),
        { lem := "uita", model := "m", geninf := none, perf := none })]
      [(("m" : String),
        { R := [(("1" : String), RootRule.der 1 "")],
          des := [(4, [(("1" : String), ["ae"])]), (1, [(("1" : String), ["a"])])],
          abs := [], sufd := [], suf := [] })]
      ("uita") = Except.ok
        ((([(1, ["uita"]), (4, ["uitae"])] : List (Nat × List String)).map
          Prod.snd).flatten) ∧
     (([(1, ["uita"]), (4, ["uitae"])] : List (Nat × List String)).map
       Prod.fst).Sorted (· ≤ ·)) :=
  ⟨rfl,
   c9_flatten_ascending
     [(("uita" : String),
       { lem := "uita", model := "m", geninf := none, perf := none })]
     [(("m" : String),
       { R := [(("1" : String), RootRule.der 1 "")],
         des := [(4, [(("1" : String), ["ae"])]), (1, [(("1" : String), ["a"])])],
         abs := [], sufd := [], suf := [] })]
     ("uita")
     [(1, ["uita"]), (4, ["uitae"])]
     rfl⟩

/-- Claim C10, counterexample.  The claim says the compiler records exactly
`min(|range|, |endings|)` entries.  On the line `des:1,1:0:a;b;c` the
expanded range is `[1, 1]` (length 2) and the endings list has length 3,
so `min = 2`; but the two positional insertions hit the same tag `1` and
the second overwrites the first, so the stored `des` table ends with a
single entry `(1, ("0", ["b"]))`. -/
theorem c10_counterexample :
    processDesLine cModelEmpty ("des:1,1:0:a;b;c") =
      Except.ok { cModelEmpty with des := [(1, (("0" : String), ["b"]))] } ∧
    parseRange ("1,1") = some [1, 1] ∧
    pySplit ';' ("a;b;c") = ["a", "b", "c"] ∧
    ([(1, (("0" : String), ["b"]))] : List (Nat × String × List String)).length ≠
      min ([1, 1] : List Nat).length (["a", "b", "c"] : List String).length :=
  ⟨rfl, rfl, rfl, by decide⟩

/-- Claim C10, amended: on a `des`/`des+` line whose regex match and range
parse succeed, the compiler never fails on a length mismatch between the
expanded range and the semicolon-split endings: it performs exactly
`min(|range|, |endings|)` positional insertions (the zip), silently
dropping the excess of either list.  Each insertion is a dict update, so a
tag repeated in the range keeps only its last pairing; when the paired
tags are distinct and new, the stored table gains exactly
`min(|range|, |endings|)` entries, appended in order. -/
theorem c10_des_zip_truncation (m : CModel) (line : String)
    (r root d : List Char) (ids : List Nat)
    (hmatch : desMatchChars line.data = some (r, root, d))
    (hrange : parseRange (String.mk r) = some ids)
    (hnd : ids.Nodup)
    (hfresh : ∀ i ∈ ids, containsKey m.des i = false) :
    processDesLine m line = Except.ok { m with des := m.des ++ (ids.zip (pySplit ';' (String.mk d))).map (fun p => (p.1, (String.mk root, pySplit ',' (pyRemoveChar '-' p.2)))) } ∧
    (ids.zip (pySplit ';' (String.mk d))).length =
      min ids.length (pySplit ';' (String.mk d)).length := by
  constructor
  · simp only [processDesLine, hmatch, hrange]
    have hfold := foldl_dictSet_fresh
      (fun p : Nat × String => (String.mk root, pySplit ',' (pyRemoveChar '-' p.2)))
      (ids.zip (pySplit ';' (String.mk d))) m.des
      (hnd.sublist (map_fst_zip_sublist ids (pySplit ';' (String.mk d))))
      (fun p hp => hfresh p.1 (List.of_mem_zip hp).1)
    rw [hfold]
  · exact List.length_zip ..

/-- Claim C10, witness at the concrete line `des:1-3:0:a;b` (range of three
tags, two endings): processing succeeds and stores exactly
`min(3, 2) = 2` entries. -/
theorem c10_des_zip_truncation_witness :
    desMatchChars ("des:1-3:0:a;b").data =
      some (['1', '-', '3'], ['0'], ['a', ';', 'b']) ∧
    parseRange (String.mk ['1', '-', '3']) = some [1, 2, 3] ∧
    ([1, 2, 3] : List Nat).Nodup ∧
    (∀ i ∈ ([1, 2, 3] : List Nat), containsKey cModelEmpty.des i = false) ∧
    (processDesLine cModelEmpty ("des:1-3:0:a;b") =
      Except.ok { cModelEmpty with des := cModelEmpty.des ++ (([1, 2, 3] : List Nat).zip (pySplit ';' (String.mk ['a', ';', 'b']))).map (fun p => (p.1, (String.mk ['0'], pySplit ',' (pyRemoveChar '-' p.2)))) } ∧
     (([1, 2, 3] : List Nat).zip (pySplit ';' (String.mk ['a', ';', 'b']))).length =
       min ([1, 2, 3] : List Nat).length
         (pySplit ';' (String.mk ['a', ';', 'b'])).length) :=
  ⟨rfl, rfl, by decide, by decide,
   c10_des_zip_truncation cModelEmpty ("des:1-3:0:a;b")
     ['1', '-', '3'] ['0'] ['a', ';', 'b'] [1, 2, 3]
     rfl rfl (by decide) (by decide)⟩

end Collatinus
